import Mathlib

set_option maxRecDepth 4000

/-!
Verification of the parameter-store core of the SolidWorks dimension editor.

The source is a single Python file.  Its core consists of:
* `parse_line` — recognizes a parameter assignment line via the regex
  `^\s*"([^"]+)"\s*=\s*([\d.]+)mm` applied to the stripped line, then converts
  the numeric token with `float()`;
* `load_data` — parses every line and keeps the recognized `(name, value)` pairs;
* `save_data` — rewrites every line whose parsed name is a key of the update
  dict as `"<name>"= <value>mm\n`, passing every other line through verbatim
  (appending a newline when the line lacks one);
* `App.save` — validates each proposed value (`float(text)` then `value <= 0`
  is rejected) before calling `save_data`;
* `App.load_preset_file` — parses a preset file (`name = v1,v2,...` lines,
  `#` comments), skipping any line whose value list fails `float()` parsing,
  and sorting each accepted value list;
* the slider-index snippet of `App.create_simple_parameter_area`, which maps a
  current value to the index of the nearest preset candidate.

Modelling conventions:
* Python `float` values are modelled by `PyF`: an exact rational together with
  the non-finite values `inf`, `-inf`, `nan`.  Decimal literals are modelled
  exactly as rationals; IEEE-754 rounding is abstracted away (every value the
  program manipulates originates from a decimal literal, and the source's
  arithmetic on those values is order/equality comparisons, subtraction and
  absolute value, which the rational model reproduces).
* `repr`/f-string formatting of a float is modelled by an exact decimal
  rendering; Python's shortest-round-trip repr agrees with it on the decimal
  literals the program handles (it differs only in scientific notation for
  extreme magnitudes, which no claim exercises).
* Whitespace (`str.strip`, `\s`) is modelled by the ASCII whitespace
  characters; Python additionally strips rare Unicode whitespace, which no
  claim exercises.  Underscore digit separators accepted by Python's `float`
  are likewise not modelled.
* Python exceptions are modelled by `Except`: `parse_line` raising
  `ValueError` from `float()` is `Except.error`.
-/

/-- Model of a Python `float` value: an exact rational, or a non-finite value. -/
inductive PyF where
  | finite (q : ℚ)
  | inf
  | ninf
  | nan
deriving DecidableEq, Repr

/-- Python `x < y` on floats: `nan` is incomparable with everything,
`-inf` is below every finite value and `inf`, `inf` is above. -/
def pyLtB : PyF → PyF → Bool
  | .finite a, .finite b => decide (a < b)
  | .finite _, .inf => true
  | .ninf, .finite _ => true
  | .ninf, .inf => true
  | _, _ => false

/-- Python `value <= 0` (the validation test in `App.save`):
`nan <= 0` and `inf <= 0` are `False`, `-inf <= 0` is `True`. -/
def pyLe0 : PyF → Bool
  | .finite q => decide (q ≤ 0)
  | .ninf => true
  | _ => false

/-- Python `float.is_integer`. -/
def pyIsInteger : PyF → Bool
  | .finite q => q.den == 1
  | _ => false

/-- ASCII whitespace, modelling Python's `str.strip` / regex `\s`. -/
def isPySpace (c : Char) : Bool :=
  c == ' ' || c == '\t' || c == '\n' || c == '\r' || c == '\x0b' || c == '\x0c'

/-- Python `str.strip()` on a character list. -/
def pyStrip (cs : List Char) : List Char :=
  ((cs.dropWhile isPySpace).reverse.dropWhile isPySpace).reverse

/-- Numeric value of a list of decimal digit characters (most significant first). -/
def digitsVal (cs : List Char) : ℕ :=
  cs.foldl (fun a c => a * 10 + (c.toNat - 48)) 0

/-- A digit or a dot — the character class `[\d.]` of the parameter regex. -/
def isDigitDot (c : Char) : Bool :=
  c.isDigit || c == '.'

/-- Value of a decimal literal with integer digits `ip`, fraction digits `fp`
and decimal exponent `e`. -/
def decVal (ip fp : List Char) (e : ℤ) : ℚ :=
  ((digitsVal ip : ℚ) + (digitsVal fp : ℚ) / (10 : ℚ) ^ fp.length) * (10 : ℚ) ^ e

/-- Parse a non-empty all-digit string to a natural number. -/
def parseDigitsNat (cs : List Char) : Option ℕ :=
  if cs.isEmpty then none
  else if cs.all Char.isDigit then some (digitsVal cs) else none

/-- Parse an optionally signed all-digit string to an integer
(the exponent digits of a `float` literal). -/
def parseSignedDigits : List Char → Option ℤ
  | '+' :: rest => (parseDigitsNat rest).map (fun n => (n : ℤ))
  | '-' :: rest => (parseDigitsNat rest).map (fun n => -(n : ℤ))
  | rest => (parseDigitsNat rest).map (fun n => (n : ℤ))

/-- Parse the exponent tail of a `float` literal: empty, or `e`/`E` followed by
an optionally signed digit string.  Returns the decimal exponent. -/
def parseExpTail : List Char → Option ℤ
  | [] => some 0
  | 'e' :: rest => parseSignedDigits rest
  | 'E' :: rest => parseSignedDigits rest
  | _ => none

/-- Parse an unsigned decimal `float` literal (after sign handling):
`digits [. digits] [exp]` with at least one digit, consuming the whole string. -/
def parseDecimalTail (cs : List Char) : Option ℚ :=
  let ip := cs.takeWhile Char.isDigit
  let r1 := cs.dropWhile Char.isDigit
  match r1 with
  | '.' :: r2 =>
    let fp := r2.takeWhile Char.isDigit
    let r3 := r2.dropWhile Char.isDigit
    if ip.isEmpty && fp.isEmpty then none
    else (parseExpTail r3).map (fun e => decVal ip fp e)
  | _ =>
    if ip.isEmpty then none
    else (parseExpTail r1).map (fun e => decVal ip [] e)

/-- The unsigned part of Python `float(string)`: an `inf`/`infinity`/`nan`
keyword (case-insensitive) or a decimal literal. -/
def pyFloatUnsigned (cs : List Char) (neg : Bool) : Option PyF :=
  let low := cs.map Char.toLower
  if low = [ 'i', 'n', 'f'] then some (if neg then .ninf else .inf)
  else if low = [ 'i', 'n', 'f', 'i', 'n', 'i', 't', 'y'] then some (if neg then .ninf else .inf)
  else if low = [ 'n', 'a', 'n'] then some .nan
  else (parseDecimalTail cs).map (fun q => .finite (if neg then -q else q))

/-- Python `float(string)` on a character list: strip whitespace, optional
sign, then keyword or decimal literal.  `none` models `ValueError`. -/
def pyFloatL (cs : List Char) : Option PyF :=
  match pyStrip cs with
  | '+' :: rest => pyFloatUnsigned rest false
  | '-' :: rest => pyFloatUnsigned rest true
  | rest => pyFloatUnsigned rest false

/-- Python `float(string)`. -/
def pyFloatOfString (s : String) : Option PyF :=
  pyFloatL s.data

/-- The tail of the parameter regex: `\s*` then the numeric token `[\d.]+`
followed by the literal `mm`; arbitrary text may follow (prefix match). -/
def matchNumberUnit (r3 : List Char) : Option (List Char) :=
  let r4 := r3.dropWhile isPySpace
  let tok := r4.takeWhile isDigitDot
  if tok.isEmpty then none
  else
    match r4.dropWhile isDigitDot with
    | 'm' :: 'm' :: _ => some tok
    | _ => none

/-- The part of the regex after the first capture group: `"\s*=\s*` then the
numeric token and `mm` (via `matchNumberUnit`). -/
def matchEqNumber (name r1 : List Char) : Option (List Char × List Char) :=
  match r1.dropWhile (fun c => c ≠ '"') with
  | '"' :: r2 =>
    if name.isEmpty then none
    else
      match r2.dropWhile isPySpace with
      | '=' :: r3 => (matchNumberUnit r3).map (fun tok => (name, tok))
      | _ => none
  | _ => none

/-- The regex match `re.match(r'^\s*"([^"]+)"\s*=\s*([\d.]+)mm', line.strip())`
of `parse_line`: returns the two capture groups (name, numeric token) when the
stripped line matches. -/
def matchParamLine (cs : List Char) : Option (List Char × List Char) :=
  match (pyStrip cs).dropWhile isPySpace with
  | '"' :: r1 => matchEqNumber (r1.takeWhile (fun c => c ≠ '"')) r1
  | _ => none

/-- Model of `parse_line(line)`: regex match, then `float()` on the numeric token.
`Except.error ()` models the `ValueError` that `float()` raises when the
token (a run of digits and dots) is not a valid literal. -/
def parse_line (line : String) : Except Unit (Option (String × PyF)) :=
  match matchParamLine line.data with
  | none => Except.ok none
  | some (name, tok) =>
    match pyFloatL tok with
    | some v => Except.ok (some (String.mk name, v))
    | none => Except.error ()

instance {ε α : Type} [DecidableEq ε] [DecidableEq α] : DecidableEq (Except ε α) := fun a b =>
  match a, b with
  | Except.ok x, Except.ok y =>
    if h : x = y then isTrue (by rw [h]) else isFalse (by simp [h])
  | Except.error x, Except.error y =>
    if h : x = y then isTrue (by rw [h]) else isFalse (by simp [h])
  | Except.ok _, Except.error _ => isFalse (by simp)
  | Except.error _, Except.ok _ => isFalse (by simp)

/-- Monadic map over `Except`, evaluating left to right and stopping at the
first error — the semantics of a Python list comprehension or loop in which
each element may raise. -/
def mapME {α β ε : Type} (f : α → Except ε β) : List α → Except ε (List β)
  | [] => Except.ok []
  | x :: xs =>
    match f x with
    | Except.error e => Except.error e
    | Except.ok y =>
      match mapME f xs with
      | Except.error e => Except.error e
      | Except.ok ys => Except.ok (y :: ys)

/-- Model of `load_data`: parse every line, keep the recognized pairs
(`[p for p in params if p]`). -/
def load_data (lines : List String) : Except Unit (List (String × PyF)) :=
  (mapME parse_line lines).map (fun ps => ps.filterMap id)

/-- Python dict insertion `d[k] = v` on the association-list model of a dict:
overwrite in place if the key is present, else append.  (A dict never holds
a duplicate key, so replacing the first occurrence models the update.) -/
def pyDictInsert {β : Type} : List (String × β) → String → β → List (String × β)
  | [], k, v => [(k, v)]
  | p :: ps, k, v => if p.1 = k then (k, v) :: ps else p :: pyDictInsert ps k v

/-- Python `dict(pairs)`: left-to-right insertion, so a repeated key keeps the
last value. -/
def pyDict {β : Type} (ps : List (String × β)) : List (String × β) :=
  ps.foldl (fun d p => pyDictInsert d p.1 p.2) []

/-- Python `d[k]` / `k in d` on the association-list model of a dict. -/
def pyDictGet {β : Type} : List (String × β) → String → Option β
  | [], _ => none
  | p :: ps, k => if p.1 = k then some p.2 else pyDictGet ps k

/-- The value associated with the last occurrence of a key in a pair list
(the specification of "last-wins"). -/
def lookupLast {β : Type} : List (String × β) → String → Option β
  | [], _ => none
  | p :: ps, k =>
    match lookupLast ps k with
    | some v => some v
    | none => if p.1 = k then some p.2 else none

/-- Decimal digits of the fraction `num/den` (with `0 ≤ num < den`), fuelled. -/
def fracDigits : ℕ → ℕ → ℕ → List Char
  | 0, _, _ => []
  | _ + 1, 0, _ => []
  | fuel + 1, num, den =>
    Char.ofNat (48 + num * 10 / den) :: fracDigits fuel (num * 10 % den) den

/-- Exact decimal rendering of a non-integer rational, modelling Python's
f-string formatting of a non-integer float. -/
def decimalRepr (q : ℚ) : String :=
  let n : ℕ := q.num.natAbs
  let d : ℕ := q.den
  (if q.num < 0 then "-" else "") ++ toString (n / d) ++ "." ++
    String.mk (fracDigits 40 (n % d) d)

/-- Rendering `int(value) if value.is_integer() else value`, as formatted by the f-string in
`save_data`. -/
def renderValue : PyF → String
  | .finite q => if q.den == 1 then toString q.num else decimalRepr q
  | .inf => "inf"
  | .ninf => "-inf"
  | .nan => "nan"

/-- The rebuilt output line `f'"{name}"= {value}mm\n'` of `save_data`. -/
def updatedLine (name : String) (v : PyF) : String :=
  "\"" ++ name ++ "\"= " ++ renderValue v ++ "mm\n"

/-- The expression `line if line.endswith('\n') else line + '\n'`. -/
def normalizeNl (line : String) : String :=
  if line.data.getLast? = some '\n' then line else line ++ "\n"

/-- The per-line transformation of `save_data`, given the update dict. -/
def lineOut (d : List (String × PyF)) (line : String) : Except Unit String :=
  (parse_line line).map (fun parsed =>
    match parsed with
    | some (n, _) =>
      match pyDictGet d n with
      | some v => updatedLine n v
      | none => normalizeNl line
    | none => normalizeNl line)

/-- Model of `save_data(params, original_lines, path)` up to the file write: builds the
update dict and maps every original line through `lineOut`.  An error from
`parse_line` aborts the whole save (nothing is written). -/
def save_data (params : List (String × PyF)) (original_lines : List String) :
    Except Unit (List String) :=
  mapME (lineOut (pyDict params)) original_lines

/-- One iteration of the validation loop of `App.save`:
`value = float(entry.get()); if value <= 0: raise ValueError(f"{name} must be > 0")`. -/
def validateEntry (p : String × String) : Except String (String × PyF) :=
  match pyFloatOfString p.2 with
  | none => Except.error ("could not convert string to float: " ++ p.2)
  | some v =>
    if pyLe0 v then Except.error (p.1 ++ " must be > 0")
    else Except.ok (p.1, v)

/-- Model of `App.save`: convert each entry text with `float()`, reject `value <= 0`
with a per-parameter message, and only then call `save_data`.  Any error
aborts the save with nothing written. -/
def app_save (entries : List (String × String)) (original_lines : List String) :
    Except String (List String) :=
  match mapME validateEntry entries with
  | Except.error e => Except.error e
  | Except.ok updated =>
    match save_data updated original_lines with
    | Except.error _ => Except.error "ValueError"
    | Except.ok out => Except.ok out

/-- Insert a value into a list, before the first strictly greater element
(Python-stable for equal keys). -/
def insertPy (x : PyF) : List PyF → List PyF
  | [] => [x]
  | y :: ys => if pyLtB x y then x :: y :: ys else y :: insertPy x ys

/-- Python `sorted(values)`: a stable sort driven by `<`.  Agrees with
Python's Timsort whenever `<` totally orders the elements (all finite). -/
def pySorted (l : List PyF) : List PyF :=
  l.foldl (fun acc x => insertPy x acc) []

/-- One iteration of the `load_preset_file` line loop over the accumulated
`(presets dict, param_count)` state. -/
def presetStep (st : List (String × List PyF) × ℕ) (rawLine : String) :
    List (String × List PyF) × ℕ :=
  let l := pyStrip rawLine.data
  if l.isEmpty then st
  else if l.head? = some '#' then st
  else if l.contains '=' then
    let name := pyStrip (l.takeWhile (fun c => c ≠ '='))
    let valuesStr := pyStrip ((l.dropWhile (fun c => c ≠ '=')).drop 1)
    if valuesStr.isEmpty then st
    else
      let segs := (valuesStr.splitOn ',').filterMap (fun v =>
        let v1 := pyStrip v
        if v1.isEmpty then none else some v1)
      match segs.mapM pyFloatL with
      | none => st
      | some values =>
        if values.isEmpty then st
        else (pyDictInsert st.1 (String.mk name) (pySorted values), st.2 + 1)
  else st

/-- Model of `App.load_preset_file` up to the file read: fold the line loop over the
content, returning the presets dict and the count of adopted lines.  A line
whose value list fails `float()` parsing is skipped (`except ValueError:
continue`). -/
def load_preset_file (lines : List String) : List (String × List PyF) × ℕ :=
  lines.foldl presetStep ([], 0)

/-- Python `list.index(x)` on rationals: first position of an equal element. -/
def pyIndexQ : List ℚ → ℚ → Option ℕ
  | [], _ => none
  | y :: ys, x => if y == x then some 0 else (pyIndexQ ys x).map (fun i => i + 1)

/-- Python `min(preset_values, key=lambda x: abs(x - value))`: a stable scan
keeping the first element of minimal key. -/
def pyMinAbs (l : List ℚ) (v : ℚ) : Option ℚ :=
  match l with
  | [] => none
  | x :: xs => some (xs.foldl (fun b y => if |y - v| < |b - v| then y else b) x)

/-- The slider-index snippet of `App.create_simple_parameter_area`: the index
of the current value if it is a preset candidate, else the index of the
closest candidate.  Values at this site originate from decimal literals and
are modelled as exact rationals. -/
def closestIndex (preset_values : List ℚ) (value : ℚ) : Option ℕ :=
  if preset_values.contains value then pyIndexQ preset_values value
  else (pyMinAbs preset_values value).bind (pyIndexQ preset_values)

/-- The amended recognition grammar for the numeric token: an unsigned decimal
literal — digits with at most one dot, at least one digit, no sign, no
exponent. -/
def isUnsignedDecimalLiteral (cs : List Char) : Bool :=
  let ip := cs.takeWhile Char.isDigit
  let r := cs.dropWhile Char.isDigit
  match r with
  | [] => !ip.isEmpty
  | '.' :: r2 =>
    (!ip.isEmpty || !(r2.takeWhile Char.isDigit).isEmpty) &&
      (r2.dropWhile Char.isDigit).isEmpty
  | _ => false

/-- The amended recognition rule, written from the amended claim: the stripped
line matches `"<name>"= <number>mm` with `<number>` an unsigned decimal
literal and arbitrary trailing text after `mm`. -/
def matchesParamGrammar (line : String) : Bool :=
  match matchParamLine line.data with
  | some p => isUnsignedDecimalLiteral p.2
  | none => false

/-- The condition under which the value-list comprehension of
`load_preset_file` raises `ValueError` (caught by `except ValueError:
continue`): the stripped line is non-empty, is not a comment, contains `=`,
has a non-empty value part, and some comma-separated segment fails
`float()`. -/
def presetMalformed (rawLine : String) : Bool :=
  let l := pyStrip rawLine.data
  !l.isEmpty && !(l.head? == some '#') && l.contains '=' &&
    (let valuesStr := pyStrip ((l.dropWhile (fun c => c ≠ '=')).drop 1)
     !valuesStr.isEmpty &&
       (((valuesStr.splitOn ',').filterMap (fun v =>
           let v1 := pyStrip v
           if v1.isEmpty then none else some v1)).mapM pyFloatL).isNone)

example : parse_line "\"Height\"= 2400mm\n" = Except.ok (some ("Height", PyF.finite 2400)) := by with_unfolding_all decide
example : parse_line "; comment\n" = Except.ok none := by with_unfolding_all decide
example : parse_line "\"X\"= -5mm" = Except.ok none := by with_unfolding_all decide
example : parse_line "\"X\"= 1.2.3mm" = Except.error () := by with_unfolding_all decide
example : parse_line "  \"A B\" = 12.5mm junk" = Except.ok (some ("A B", PyF.finite (25/2))) := by with_unfolding_all decide
example : save_data [] ["x"] = Except.ok ["x\n"] := by with_unfolding_all decide
example : save_data [("X", PyF.finite 5)] ["\"X\"=1mm\n", "\"X\"=1mm\n"] =
    Except.ok ["\"X\"= 5mm\n", "\"X\"= 5mm\n"] := by with_unfolding_all decide
example : pyFloatOfString "inf" = some PyF.inf := by with_unfolding_all decide
example : pyFloatOfString "-5" = some (PyF.finite (-5)) := by with_unfolding_all decide
example : pyFloatOfString "0" = some (PyF.finite 0) := by with_unfolding_all decide
example : app_save [("X", "0")] [] = Except.error "X must be > 0" := by with_unfolding_all decide
example : app_save [("X", "inf")] [] = Except.ok [] := by with_unfolding_all decide
example : load_preset_file ["X = 5,5"] = ([("X", [PyF.finite 5, PyF.finite 5])], 1) := by with_unfolding_all decide
example : load_preset_file ["# c", "A = 3,1,2", "B = 1,x", "C = 7"] =
    ([("A", [PyF.finite 1, PyF.finite 2, PyF.finite 3]), ("C", [PyF.finite 7])], 2) := by with_unfolding_all decide
example : closestIndex [100, 200, 400] 250 = some 1 := by with_unfolding_all decide
example : closestIndex [100, 200, 400] 200 = some 1 := by with_unfolding_all decide
example : renderValue (PyF.finite (601/2)) = "300.5" := by with_unfolding_all decide
example : renderValue (PyF.finite 300) = "300" := by with_unfolding_all decide

theorem mapME_ok_length {α β ε : Type} {f : α → Except ε β} :
    ∀ {l : List α} {out : List β}, mapME f l = Except.ok out → out.length = l.length := by
  intro l
  induction l with
  | nil => intro out h; simp [mapME] at h; simp [← h]
  | cons x xs ih =>
    intro out h
    simp only [mapME] at h
    cases hfx : f x with
    | error e => rw [hfx] at h; exact absurd h (by simp)
    | ok y =>
      rw [hfx] at h
      cases hxs : mapME f xs with
      | error e => rw [hxs] at h; exact absurd h (by simp)
      | ok ys =>
        rw [hxs] at h
        cases h
        simp [ih hxs]

theorem mapME_ok_get {α β ε : Type} {f : α → Except ε β} :
    ∀ {l : List α} {out : List β}, mapME f l = Except.ok out →
      ∀ i (hl : i < l.length) (ho : i < out.length),
        f (l.get ⟨i, hl⟩) = Except.ok (out.get ⟨i, ho⟩) := by
  intro l
  induction l with
  | nil => intro out _ i hl; exact absurd hl (by simp)
  | cons x xs ih =>
    intro out h i hl ho
    simp only [mapME] at h
    cases hfx : f x with
    | error e => rw [hfx] at h; exact absurd h (by simp)
    | ok y =>
      rw [hfx] at h
      cases hxs : mapME f xs with
      | error e => rw [hxs] at h; exact absurd h (by simp)
      | ok ys =>
        rw [hxs] at h
        cases h
        cases i with
        | zero => simpa using hfx
        | succ j =>
          exact ih hxs j (by simpa using hl) (by simpa using ho)

theorem mapME_ok_mem {α β ε : Type} {f : α → Except ε β} :
    ∀ {l : List α} {out : List β}, mapME f l = Except.ok out →
      ∀ x ∈ l, ∃ y, f x = Except.ok y := by
  intro l
  induction l with
  | nil => intro out _ x hx; exact absurd hx (by simp)
  | cons a xs ih =>
    intro out h x hx
    simp only [mapME] at h
    cases hfa : f a with
    | error e => rw [hfa] at h; exact absurd h (by simp)
    | ok y =>
      rw [hfa] at h
      cases hxs : mapME f xs with
      | error e => rw [hxs] at h; exact absurd h (by simp)
      | ok ys =>
        rcases List.mem_cons.mp hx with rfl | hmem
        · exact ⟨y, hfa⟩
        · exact ih hxs x hmem

theorem mapME_eq_map {α β ε : Type} {f : α → Except ε β} {g : α → β} :
    ∀ {l : List α}, (∀ x ∈ l, f x = Except.ok (g x)) →
      mapME f l = Except.ok (l.map g) := by
  intro l
  induction l with
  | nil => intro _; simp [mapME]
  | cons x xs ih =>
    intro h
    simp only [mapME, h x (by simp), ih (fun a ha => h a (by simp [ha])), List.map_cons]

theorem beq_key_of_find {β : Type} {d : List (String × β)} {k2 : String} {p : String × β}
    (h : d.find? (fun q => q.1 == k2) = some p) : p.1 = k2 := by
  have h2 := List.find?_some h
  exact eq_of_beq h2

theorem pyDictGet_insert {β : Type} :
    ∀ (d : List (String × β)) (k k2 : String) (v : β),
      pyDictGet (pyDictInsert d k v) k2 =
        if k2 = k then some v else pyDictGet d k2 := by
  intro d
  induction d with
  | nil =>
    intro k k2 v
    by_cases h : k2 = k
    · simp [pyDictInsert, pyDictGet, h]
    · have h2 : ¬k = k2 := fun he => h he.symm
      simp [pyDictInsert, pyDictGet, h, h2]
  | cons p ps ih =>
    intro k k2 v
    by_cases hpk : p.1 = k
    · by_cases hk : k2 = k
      · simp [pyDictInsert, pyDictGet, hpk, hk]
      · have h2 : ¬k = k2 := fun he => hk he.symm
        have h3 : ¬p.1 = k2 := by
          rw [hpk]
          exact h2
        simp [pyDictInsert, pyDictGet, hpk, hk, h2, h3]
    · by_cases hp2 : p.1 = k2
      · have hk : ¬k2 = k := by
          rw [← hp2]
          exact fun he => hpk he
        simp [pyDictInsert, pyDictGet, hpk, hp2, hk]
      · simp [pyDictInsert, pyDictGet, hpk, hp2, ih]

theorem pyDict_get_foldl {β : Type} :
    ∀ (ps : List (String × β)) (d : List (String × β)) (k : String),
      pyDictGet (ps.foldl (fun d p => pyDictInsert d p.1 p.2) d) k =
        (lookupLast ps k).or (pyDictGet d k) := by
  intro ps
  induction ps with
  | nil => intro d k; simp [lookupLast]
  | cons p ps ih =>
    intro d k
    simp only [List.foldl_cons, ih, lookupLast]
    rcases h : lookupLast ps k with _ | w
    · rw [pyDictGet_insert]
      by_cases hk : k = p.1
      · simp [hk]
      · have h2 : ¬p.1 = k := fun he => hk he.symm
        simp [hk, h2]
    · simp

/-- Python `dict(params)[k]` is the value of the last pair with key `k`. -/
theorem pyDict_get_eq_lookupLast {β : Type} (ps : List (String × β)) (k : String) :
    pyDictGet (pyDict ps) k = lookupLast ps k := by
  rw [pyDict, pyDict_get_foldl]
  simp [pyDictGet]

theorem lineOut_parse_none {d : List (String × PyF)} {line : String}
    (hp : parse_line line = Except.ok none) :
    lineOut d line = Except.ok (normalizeNl line) := by
  rw [lineOut, hp]
  rfl

theorem lineOut_parse_hit {d : List (String × PyF)} {line : String} {n : String}
    {w v : PyF} (hp : parse_line line = Except.ok (some (n, w)))
    (hd : pyDictGet d n = some v) :
    lineOut d line = Except.ok (updatedLine n v) := by
  rw [lineOut, hp]
  simp [Except.map, hd]

theorem lineOut_parse_miss {d : List (String × PyF)} {line : String} {n : String}
    {w : PyF} (hp : parse_line line = Except.ok (some (n, w)))
    (hd : pyDictGet d n = none) :
    lineOut d line = Except.ok (normalizeNl line) := by
  rw [lineOut, hp]
  simp [Except.map, hd]

theorem save_data_out {params : List (String × PyF)} {lines out : List String}
    (h : save_data params lines = Except.ok out) :
    out.length = lines.length ∧
      ∀ i (hl : i < lines.length) (ho : i < out.length),
        lineOut (pyDict params) (lines.get ⟨i, hl⟩) = Except.ok (out.get ⟨i, ho⟩) := by
  rw [save_data] at h
  exact ⟨mapME_ok_length h, fun i hl ho => mapME_ok_get h i hl ho⟩

theorem map_normalizeNl_id {lines : List String}
    (h : ∀ l ∈ lines, l.data.getLast? = some '\n') :
    lines.map normalizeNl = lines := by
  induction lines with
  | nil => simp
  | cons l ls ih =>
    have h1 : normalizeNl l = l := by
      rw [normalizeNl, if_pos (h l (by simp))]
    simp only [List.map_cons, h1, ih (fun x hx => h x (by simp [hx]))]

/-- Claim C1 (amended): when parsing succeeds, serializing with an empty
update map emits one output line per input line, each line reproduced
byte-identically except that a line lacking a trailing newline gets one
appended; in particular the round-trip is exact whenever every input line is
newline-terminated. -/
theorem roundTrip_no_updates (lines : List String) (ps : List (String × PyF))
    (h : load_data lines = Except.ok ps) :
    save_data [] lines = Except.ok (lines.map normalizeNl) ∧
      ((∀ l ∈ lines, l.data.getLast? = some '\n') →
        save_data [] lines = Except.ok lines) := by
  have hall : ∀ l ∈ lines, ∃ r, parse_line l = Except.ok r := by
    rw [load_data] at h
    cases hm : mapME parse_line lines with
    | error e => rw [hm] at h; exact absurd h (by simp [Except.map])
    | ok rs => exact mapME_ok_mem hm
  have hmain : save_data [] lines = Except.ok (lines.map normalizeNl) := by
    rw [save_data]
    apply mapME_eq_map
    intro l hl
    rcases hall l hl with ⟨r, hr⟩
    rcases r with _ | ⟨n, w⟩
    · exact lineOut_parse_none hr
    · exact lineOut_parse_miss hr rfl
  refine ⟨hmain, fun hnl => ?_⟩
  rw [hmain, map_normalizeNl_id hnl]

theorem roundTrip_no_updates_witness :
    save_data [] ["\"Height\"= 2400mm\n", "; comment\n", "\"Width\"=1200mm\n"] =
      Except.ok ["\"Height\"= 2400mm\n", "; comment\n", "\"Width\"=1200mm\n"] :=
  (roundTrip_no_updates _ [("Height", PyF.finite 2400), ("Width", PyF.finite 1200)]
      (by with_unfolding_all decide)).2 (by with_unfolding_all decide)

/-- Claim C1, counterexample to the claim as stated: with an empty update map
the serialized form of a line lacking a trailing newline is not byte-identical
to the original — a newline is appended. -/
theorem roundTrip_no_updates_counterexample :
    save_data [] ["x"] = Except.ok ["x\n"] ∧ ("x\n" : String) ≠ "x" := by
  with_unfolding_all decide

/-- Claim C2 (amended): updating only parameter `A` leaves every recognized
line whose name is not `A` and every opaque line byte-identical up to
trailing-newline normalization (a line lacking a trailing newline gets one
appended); only lines whose parsed name is `A` are rewritten. -/
theorem selective_update_frame (A : String) (v : PyF) (lines out : List String)
    (hs : save_data [(A, v)] lines = Except.ok out) :
    out.length = lines.length ∧
      ∀ i (hl : i < lines.length) (ho : i < out.length),
        (parse_line (lines.get ⟨i, hl⟩) = Except.ok none →
          out.get ⟨i, ho⟩ = normalizeNl (lines.get ⟨i, hl⟩)) ∧
        (∀ n w, parse_line (lines.get ⟨i, hl⟩) = Except.ok (some (n, w)) → n ≠ A →
          out.get ⟨i, ho⟩ = normalizeNl (lines.get ⟨i, hl⟩)) ∧
        (∀ w, parse_line (lines.get ⟨i, hl⟩) = Except.ok (some (A, w)) →
          out.get ⟨i, ho⟩ = updatedLine A v) := by
  have hdict : pyDict [(A, v)] = [(A, v)] := rfl
  rcases save_data_out hs with ⟨hlen, hget⟩
  refine ⟨hlen, fun i hl ho => ⟨?_, ?_, ?_⟩⟩
  · intro hp
    have := hget i hl ho
    rw [lineOut_parse_none hp] at this
    exact (Except.ok.injEq _ _ ▸ this).symm
  · intro n w hp hne
    have hmiss : pyDictGet (pyDict [(A, v)]) n = none := by
      rw [hdict]
      simp only [pyDictGet]
      rw [if_neg]
      exact fun h => hne h.symm
    have := hget i hl ho
    rw [lineOut_parse_miss hp hmiss] at this
    exact (Except.ok.injEq _ _ ▸ this).symm
  · intro w hp
    have hhit : pyDictGet (pyDict [(A, v)]) A = some v := by
      rw [hdict]
      simp [pyDictGet]
    have := hget i hl ho
    rw [lineOut_parse_hit hp hhit] at this
    exact (Except.ok.injEq _ _ ▸ this).symm

theorem selective_update_frame_witness :
    (["\"A\"= 5mm\n", "; note\n"] : List String).get ⟨0, by decide⟩ =
        updatedLine "A" (PyF.finite 5) ∧
      (["\"A\"= 5mm\n", "; note\n"] : List String).get ⟨1, by decide⟩ =
        normalizeNl "; note\n" :=
  ⟨((selective_update_frame "A" (PyF.finite 5) ["\"A\"=1mm\n", "; note\n"]
        ["\"A\"= 5mm\n", "; note\n"] (by with_unfolding_all decide)).2 0 (by decide)
        (by decide)).2.2 (PyF.finite 1) (by with_unfolding_all decide),
    ((selective_update_frame "A" (PyF.finite 5) ["\"A\"=1mm\n", "; note\n"]
        ["\"A\"= 5mm\n", "; note\n"] (by with_unfolding_all decide)).2 1 (by decide)
        (by decide)).1 (by with_unfolding_all decide)⟩

/-- Claim C2, counterexample to the claim as stated: an opaque line lacking a
trailing newline is not left byte-identical when some other parameter is
updated — a newline is appended. -/
theorem selective_update_frame_counterexample :
    save_data [("A", PyF.finite 5)] ["x"] = Except.ok ["x\n"] ∧
      ("x\n" : String) ≠ "x" := by
  with_unfolding_all decide

/-- Claim C3: when a name occurs on several recognized lines, the in-memory
dict built from the parsed pairs keeps the last occurrence's value, and on
save every line whose parsed name is that name is rewritten to the same
updated line. -/
theorem duplicate_names_last_wins (params : List (String × PyF)) (n : String)
    (u : PyF) (hlast : lookupLast params n = some u) :
    pyDictGet (pyDict params) n = some u ∧
      ∀ lines out, save_data params lines = Except.ok out →
        ∀ i (hl : i < lines.length) (ho : i < out.length) w,
          parse_line (lines.get ⟨i, hl⟩) = Except.ok (some (n, w)) →
          out.get ⟨i, ho⟩ = updatedLine n u := by
  have hdict : pyDictGet (pyDict params) n = some u := by
    rw [pyDict_get_eq_lookupLast, hlast]
  refine ⟨hdict, fun lines out hs i hl ho w hp => ?_⟩
  rcases save_data_out hs with ⟨_, hget⟩
  have := hget i hl ho
  rw [lineOut_parse_hit hp hdict] at this
  exact (Except.ok.injEq _ _ ▸ this).symm

theorem duplicate_names_last_wins_witness :
    pyDictGet (pyDict [("X", PyF.finite 1), ("X", PyF.finite 5)]) "X" =
        some (PyF.finite 5) ∧
      (["\"X\"= 5mm\n", "\"X\"= 5mm\n"] : List String).get ⟨0, by decide⟩ =
        updatedLine "X" (PyF.finite 5) ∧
      (["\"X\"= 5mm\n", "\"X\"= 5mm\n"] : List String).get ⟨1, by decide⟩ =
        updatedLine "X" (PyF.finite 5) :=
  ⟨(duplicate_names_last_wins [("X", PyF.finite 1), ("X", PyF.finite 5)] "X"
      (PyF.finite 5) (by with_unfolding_all decide)).1,
    (duplicate_names_last_wins [("X", PyF.finite 5)] "X" (PyF.finite 5)
        (by with_unfolding_all decide)).2 ["\"X\"=1mm\n", "\"X\"=1mm\n"]
        ["\"X\"= 5mm\n", "\"X\"= 5mm\n"] (by with_unfolding_all decide) 0 (by decide)
        (by decide) (PyF.finite 1) (by with_unfolding_all decide),
    (duplicate_names_last_wins [("X", PyF.finite 5)] "X" (PyF.finite 5)
        (by with_unfolding_all decide)).2 ["\"X\"=1mm\n", "\"X\"=1mm\n"]
        ["\"X\"= 5mm\n", "\"X\"= 5mm\n"] (by with_unfolding_all decide) 1 (by decide)
        (by decide) (PyF.finite 1) (by with_unfolding_all decide)⟩

theorem mapME_append_error {α β ε : Type} {f : α → Except ε β} :
    ∀ {pre : List α} {x : α} {post : List α} {e : ε},
      (∀ p ∈ pre, ∃ y, f p = Except.ok y) → f x = Except.error e →
      mapME f (pre ++ x :: post) = Except.error e := by
  intro pre
  induction pre with
  | nil =>
    intro x post e _ hx
    simp only [List.nil_append, mapME, hx]
  | cons a pr ih =>
    intro x post e hpre hx
    rcases hpre a (by simp) with ⟨y, hy⟩
    have hrest : mapME f (pr ++ x :: post) = Except.error e :=
      ih (fun p hp => hpre p (by simp [hp])) hx
    simp only [List.cons_append, mapME, List.append_eq, hy, hrest]

/-- Claim C4 (amended): `App.save` validates each proposed value with
`float()` followed by the test `value <= 0`.  A zero or negative value is
rejected with a per-parameter error naming the offender, and any single
failure rejects the save as a whole before anything is written (the error
return happens before `save_data` is invoked).  A successful save implies
every entry's value parsed and passed the positivity test; `inf` and `nan`
pass that test and are therefore not rejected. -/
theorem save_validation (entries : List (String × String)) (lines : List String) :
    (∀ (pre : List (String × String)) (name raw : String)
        (post : List (String × String)) (v : PyF),
      entries = pre ++ (name, raw) :: post →
      (∀ p ∈ pre, ∃ u, pyFloatOfString p.2 = some u ∧ pyLe0 u = false) →
      pyFloatOfString raw = some v → pyLe0 v = true →
      app_save entries lines = Except.error (name ++ " must be > 0")) ∧
    (∀ out, app_save entries lines = Except.ok out →
      ∀ p ∈ entries, ∃ u, pyFloatOfString p.2 = some u ∧ pyLe0 u = false) := by
  constructor
  · intro pre name raw post v hsplit hpre hparse hle
    have hpre2 : ∀ p ∈ pre, ∃ y, validateEntry p = Except.ok y := by
      intro p hp
      rcases hpre p hp with ⟨u, hu, hule⟩
      refine ⟨(p.1, u), ?_⟩
      simp only [validateEntry, hu, hule, Bool.false_eq_true, if_false]
    have hx : validateEntry (name, raw) = Except.error (name ++ " must be > 0") := by
      rw [validateEntry]
      simp only [hparse, hle, if_pos]
    have hm : mapME validateEntry entries = Except.error (name ++ " must be > 0") := by
      rw [hsplit]
      exact mapME_append_error hpre2 hx
    rw [app_save, hm]
  · intro out hok p hp
    rw [app_save] at hok
    cases hm : mapME validateEntry entries with
    | error e => rw [hm] at hok; exact absurd hok (by simp)
    | ok updated =>
      rcases mapME_ok_mem hm p hp with ⟨y, hy⟩
      rw [validateEntry] at hy
      cases hparse : pyFloatOfString p.2 with
      | none =>
        simp only [hparse] at hy
        exact absurd hy (by simp)
      | some u =>
        simp only [hparse] at hy
        by_cases hle : pyLe0 u = true
        · rw [if_pos hle] at hy
          exact absurd hy (by simp)
        · exact ⟨u, rfl, by simpa using hle⟩

theorem save_validation_witness :
    app_save [("X", "0")] [] = Except.error ("X" ++ " must be > 0") ∧
      app_save [("Y", "3"), ("X", "-5")] [] = Except.error ("X" ++ " must be > 0") :=
  ⟨(save_validation [("X", "0")] []).1 [] "X" "0" [] (PyF.finite 0) rfl (by simp)
      (by with_unfolding_all decide) (by with_unfolding_all decide),
    (save_validation [("Y", "3"), ("X", "-5")] []).1 [("Y", "3")] "X" "-5" []
      (PyF.finite (-5)) rfl
      (by
        intro p hp
        rcases List.mem_singleton.mp hp with rfl
        exact ⟨PyF.finite 3, by with_unfolding_all decide, by with_unfolding_all decide⟩)
      (by with_unfolding_all decide) (by with_unfolding_all decide)⟩

/-- Claim C4, counterexample to the claim as stated: the non-finite value
`inf` passes the `value <= 0` validation, so a save containing it is accepted,
contradicting "non-finite values are rejected". -/
theorem save_validation_counterexample :
    pyFloatOfString "inf" = some PyF.inf ∧
      app_save [("X", "inf")] ["\"X\"= 1mm\n"] =
        Except.ok ["\"X\"= infmm\n"] := by
  with_unfolding_all decide

theorem digitdot_ne_of_not {c h : Char} (hc : isDigitDot c = true)
    (hh : isDigitDot h = false) : c ≠ h := by
  intro he
  rw [he, hh] at hc
  exact absurd hc (by simp)

theorem toLower_digitdot {c : Char} (h : isDigitDot c = true) : Char.toLower c = c := by
  rw [isDigitDot, Bool.or_eq_true] at h
  rcases h with h | h
  · rw [Char.isDigit, Bool.and_eq_true, decide_eq_true_eq, decide_eq_true_eq] at h
    rcases h with ⟨h1, h2⟩
    rw [Char.toLower, if_neg]
    rintro ⟨h3, h4⟩
    simp only [UInt32.le_def, BitVec.le_def, Char.toNat, UInt32.toNat] at h2 h3
    have h5 : (UInt32.toBitVec 57).toNat = 57 := rfl
    omega
  · have hc : c = '.' := eq_of_beq h
    subst hc
    decide

theorem digitdot_not_space {c : Char} (h : isDigitDot c = true) : isPySpace c = false := by
  have h1 : c ≠ ' ' := digitdot_ne_of_not h (by decide)
  have h2 : c ≠ '\t' := digitdot_ne_of_not h (by decide)
  have h3 : c ≠ '\n' := digitdot_ne_of_not h (by decide)
  have h4 : c ≠ '\r' := digitdot_ne_of_not h (by decide)
  have h5 : c ≠ '\x0b' := digitdot_ne_of_not h (by decide)
  have h6 : c ≠ '\x0c' := digitdot_ne_of_not h (by decide)
  rw [isPySpace]
  simp [h1, h2, h3, h4, h5, h6]

theorem dropWhile_eq_self_of_all {α : Type} {p : α → Bool} {cs : List α}
    (h : ∀ c ∈ cs, p c = false) : cs.dropWhile p = cs := by
  cases cs with
  | nil => rfl
  | cons c rest =>
    rw [List.dropWhile_cons, h c (by simp)]
    simp

theorem pyStrip_of_all_nonspace {cs : List Char}
    (h : ∀ c ∈ cs, isPySpace c = false) : pyStrip cs = cs := by
  rw [pyStrip, dropWhile_eq_self_of_all h,
    dropWhile_eq_self_of_all (fun c hc => h c (List.mem_reverse.mp hc)),
    List.reverse_reverse]

/-- Claim C6 (code bug): a line such as `"X"= 1.2.3mm` matches the parameter
regex (the token class `[\d.]+` admits several dots) but `float("1.2.3")`
raises `ValueError`, so both parsing and serialization fail on such content
instead of treating the line as opaque. -/
theorem parse_totality_bug :
    parse_line "\"X\"= 1.2.3mm" = Except.error () ∧
      load_data ["\"X\"= 1.2.3mm\n", "\"Y\"= 2mm\n"] = Except.error () ∧
      save_data [] ["\"X\"= 1.2.3mm\n", "\"Y\"= 2mm\n"] = Except.error () := by
  with_unfolding_all decide

theorem dropWhile_head_not {α : Type} {p : α → Bool} :
    ∀ {l : List α} {c : α} {rest : List α}, l.dropWhile p = c :: rest → p c = false := by
  intro l
  induction l with
  | nil => intro c rest h; exact absurd h (by simp)
  | cons a as ih =>
    intro c rest h
    rw [List.dropWhile_cons] at h
    by_cases hp : p a = true
    · rw [if_pos hp] at h
      exact ih h
    · rw [if_neg hp] at h
      cases h
      simpa using hp


theorem matchNumberUnit_tok {r3 tok : List Char}
    (h : matchNumberUnit r3 = some tok) :
    tok ≠ [] ∧ ∀ c ∈ tok, isDigitDot c = true := by
  simp only [matchNumberUnit] at h
  split at h
  · exact absurd h (by simp)
  · rename_i htok
    split at h
    · cases h
      refine ⟨fun hemp => htok (by simp [hemp]), fun c hc => List.mem_takeWhile_imp hc⟩
    · exact absurd h (by simp)

theorem matchParamLine_tok {cs nm tok : List Char}
    (h : matchParamLine cs = some (nm, tok)) :
    tok ≠ [] ∧ ∀ c ∈ tok, isDigitDot c = true := by
  rw [matchParamLine] at h
  split at h
  · rw [matchEqNumber] at h
    split at h
    · split at h
      · exact absurd h (by simp)
      · split at h
        · rcases Option.map_eq_some'.mp h with ⟨tok0, htok0, heq⟩
          injection heq with h1 h2
          subst h1
          subst h2
          exact matchNumberUnit_tok htok0
        · exact absurd h (by simp)
    · exact absurd h (by simp)
  · exact absurd h (by simp)

theorem pyFloatL_digitdot_isSome {cs : List Char} (hne : cs ≠ [])
    (hall : ∀ c ∈ cs, isDigitDot c = true) :
    (pyFloatL cs).isSome = isUnsignedDecimalLiteral cs := by
  have hstrip : pyStrip cs = cs :=
    pyStrip_of_all_nonspace (fun c hc => digitdot_not_space (hall c hc))
  cases cs with
  | nil => exact absurd rfl hne
  | cons c rest =>
  have hc : isDigitDot c = true := hall c (by simp)
  have hcp : c ≠ '+' := digitdot_ne_of_not hc (by decide)
  have hcm : c ≠ '-' := digitdot_ne_of_not hc (by decide)
  have hfl : pyFloatL (c :: rest) = pyFloatUnsigned (c :: rest) false := by
    rw [pyFloatL, hstrip]
    split
    · rename_i heq
      cases heq
      exact absurd rfl hcp
    · rename_i heq
      cases heq
      exact absurd rfl hcm
    · rfl
  have hlow : (c :: rest).map Char.toLower = c :: rest := by
    have hself : ∀ x ∈ c :: rest, Char.toLower x = x :=
      fun x hx => toLower_digitdot (hall x hx)
    rw [List.map_congr_left hself]
    exact List.map_id' _
  have hinf : c :: rest ≠ [ 'i', 'n', 'f'] := by
    intro he
    have hci : c = 'i' := by
      have := congrArg List.head? he
      simpa using this
    exact digitdot_ne_of_not hc (by decide) hci
  have hinfy : c :: rest ≠ [ 'i', 'n', 'f', 'i', 'n', 'i', 't', 'y'] := by
    intro he
    have hci : c = 'i' := by
      have := congrArg List.head? he
      simpa using this
    exact digitdot_ne_of_not hc (by decide) hci
  have hnan : c :: rest ≠ [ 'n', 'a', 'n'] := by
    intro he
    have hcn : c = 'n' := by
      have := congrArg List.head? he
      simpa using this
    exact digitdot_ne_of_not hc (by decide) hcn
  rw [hfl, pyFloatUnsigned]
  simp only [hlow, if_neg hinf, if_neg hinfy, if_neg hnan, Option.isSome_map]
  rw [parseDecimalTail, isUnsignedDecimalLiteral]
  cases hr : (c :: rest).dropWhile Char.isDigit with
  | nil =>
    simp only []
    by_cases hip : ((c :: rest).takeWhile Char.isDigit).isEmpty = true
    · simp [hip, parseExpTail]
    · have hip2 : ((c :: rest).takeWhile Char.isDigit).isEmpty = false := by
        simpa using hip
      simp [hip2, parseExpTail]
  | cons d r2 =>
    have hd1 : Char.isDigit d = false := dropWhile_head_not hr
    have hd2 : isDigitDot d = true := by
      have hmem : d ∈ c :: rest := (List.dropWhile_sublist Char.isDigit).mem (hr ▸ by simp)
      exact hall d hmem
    have hd3 : d = '.' := by
      rw [isDigitDot, hd1, Bool.false_or] at hd2
      exact eq_of_beq hd2
    subst hd3
    have hr2mem : ∀ x ∈ r2, isDigitDot x = true := by
      intro x hx
      have hmem : x ∈ c :: rest := (List.dropWhile_sublist Char.isDigit).mem (hr ▸ by simp [hx])
      exact hall x hmem
    simp only []
    by_cases hif : (((c :: rest).takeWhile Char.isDigit).isEmpty &&
        (r2.takeWhile Char.isDigit).isEmpty) = true
    · rcases Bool.and_eq_true_iff.mp hif with ⟨hif1, hif2⟩
      simp [hif1, hif2]
    · have hif2 : (((c :: rest).takeWhile Char.isDigit).isEmpty &&
          (r2.takeWhile Char.isDigit).isEmpty) = false := by
        rw [← Bool.not_eq_true]
        exact hif
      rw [hif2]
      have hor := Bool.and_eq_false_iff.mp hif2
      cases hr3 : r2.dropWhile Char.isDigit with
      | nil =>
        simp only [Bool.false_eq_true, if_false, parseExpTail]
        rcases hor with h1 | h1 <;> simp [h1, hr3]
      | cons e r4 =>
        have he1 : Char.isDigit e = false := dropWhile_head_not hr3
        have he2 : isDigitDot e = true := by
          have hmem : e ∈ r2 := (List.dropWhile_sublist Char.isDigit).mem (hr3 ▸ by simp)
          exact hr2mem e hmem
        have he3 : e = '.' := by
          rw [isDigitDot, he1, Bool.false_or] at he2
          exact eq_of_beq he2
        subst he3
        simp only [Bool.false_eq_true, if_false, parseExpTail, Option.map_none,
          Option.isSome_none]
        rcases hor with h1 | h1 <;> simp [h1, hr3]

/-- Claim C5 (amended): a line is recognized as a parameter assignment exactly
when its stripped text matches `"<name>"= <number>mm` — arbitrary whitespace
around `=`, `<name>` a nonempty sequence of characters excluding the double
quote, `<number>` an UNSIGNED decimal literal (digits with at most one dot and
at least one digit; no sign, no exponent), and arbitrary text allowed after
`mm`.  A signed (e.g. negative) literal is not recognized.  A non-recognized
line is retained as opaque text except when the regex matches but the
digits-and-dots token is not a valid literal, in which case parsing raises
(the totality bug of C6). -/
theorem recognition_grammar (line : String) :
    ((∃ n v, parse_line line = Except.ok (some (n, v))) ↔
      matchesParamGrammar line = true) ∧
    (parse_line line = Except.error () ↔
      ∃ nm tok, matchParamLine line.data = some (nm, tok) ∧
        isUnsignedDecimalLiteral tok = false) := by
  cases hm : matchParamLine line.data with
  | none =>
    constructor
    · constructor
      · rintro ⟨n, v, hp⟩
        rw [parse_line, hm] at hp
        exact absurd hp (by simp)
      · intro hg
        rw [matchesParamGrammar, hm] at hg
        exact absurd hg (by simp)
    · constructor
      · intro hp
        rw [parse_line, hm] at hp
        exact absurd hp (by simp)
      · rintro ⟨nm, tok, hmt, _⟩
        exact absurd hmt (by simp)
  | some p =>
    rcases p with ⟨nm, tok⟩
    rcases matchParamLine_tok hm with ⟨hne, hall⟩
    have hiff := pyFloatL_digitdot_isSome hne hall
    have hparse : parse_line line = (match pyFloatL tok with
        | some v => Except.ok (some (String.mk nm, v))
        | none => Except.error ()) := by
      rw [parse_line, hm]
    constructor
    · constructor
      · rintro ⟨n, v, hp⟩
        rw [hparse] at hp
        rw [matchesParamGrammar, hm]
        cases hf : pyFloatL tok with
        | none => rw [hf] at hp; exact absurd hp (by simp)
        | some w =>
          show isUnsignedDecimalLiteral tok = true
          rw [← hiff, hf]
          rfl
      · intro hg
        rw [matchesParamGrammar, hm] at hg
        have hg2 : isUnsignedDecimalLiteral tok = true := hg
        rw [← hiff] at hg2
        cases hf : pyFloatL tok with
        | none => rw [hf] at hg2; exact absurd hg2 (by simp)
        | some w =>
          refine ⟨String.mk nm, w, ?_⟩
          rw [hparse, hf]
    · constructor
      · intro hp
        rw [hparse] at hp
        cases hf : pyFloatL tok with
        | some w => rw [hf] at hp; exact absurd hp (by simp)
        | none =>
          refine ⟨nm, tok, rfl, ?_⟩
          rw [← hiff, hf]
          rfl
      · rintro ⟨nm2, tok2, hmt, hbad⟩
        injection hmt with hmt2
        injection hmt2 with h1 h2
        subst h1
        subst h2
        rw [← hiff] at hbad
        cases hf : pyFloatL tok with
        | some w => rw [hf] at hbad; exact absurd hbad (by simp)
        | none => rw [hparse, hf]

theorem recognition_grammar_witness :
    matchesParamGrammar "\"Depth\"= 10.5mm extra" = true ∧
      (∃ n v, parse_line "\"Depth\"= 10.5mm extra" = Except.ok (some (n, v))) :=
  ⟨by with_unfolding_all decide,
    (recognition_grammar "\"Depth\"= 10.5mm extra").1.mpr (by with_unfolding_all decide)⟩

/-- Claim C5, counterexample to the claim as stated: a signed decimal literal
is not recognized — the token class `[\d.]+` admits no sign, so
`"X"= -5mm` is treated as opaque text rather than a parameter assignment. -/
theorem recognition_grammar_counterexample :
    parse_line "\"X\"= -5mm" = Except.ok none := by
  with_unfolding_all decide

theorem takeWhile_all_append {α : Type} {p : α → Bool} {l1 l2 : List α}
    (h : ∀ x ∈ l1, p x = true) :
    (l1 ++ l2).takeWhile p = l1 ++ l2.takeWhile p := by
  rw [List.takeWhile_append, if_pos]
  rw [List.takeWhile_eq_self_iff.mpr h]

theorem dropWhile_all_append {α : Type} {p : α → Bool} {l1 l2 : List α}
    (h : ∀ x ∈ l1, p x = true) :
    (l1 ++ l2).dropWhile p = l2.dropWhile p := by
  have h1 : l1.dropWhile p = [] := List.dropWhile_eq_nil_iff.mpr h
  rw [List.dropWhile_append, h1]
  rfl

theorem pyStrip_concat {sfx : List Char} {c d : Char} {rest pre front : List Char}
    (hfront : front = c :: rest) (hc : isPySpace c = false)
    (hlast : front = pre ++ [d]) (hd : isPySpace d = false) :
    pyStrip (front ++ sfx) = front ++ (sfx.reverse.dropWhile isPySpace).reverse := by
  rw [pyStrip]
  have h1 : (front ++ sfx).dropWhile isPySpace = front ++ sfx := by
    rw [hfront, List.cons_append, List.dropWhile_cons, hc]
    simp
  rw [h1, List.reverse_append]
  have h2 : front.reverse = d :: pre.reverse := by
    rw [hlast, List.reverse_append]
    rfl
  rw [h2, List.dropWhile_append]
  by_cases hemp : (sfx.reverse.dropWhile isPySpace).isEmpty = true
  · have h3 : sfx.reverse.dropWhile isPySpace = [] := List.isEmpty_iff.mp hemp
    rw [if_pos hemp, List.dropWhile_cons, hd, h3]
    simp only [Bool.false_eq_true, if_false, List.reverse_nil, List.append_nil]
    rw [← h2, List.reverse_reverse]
  · rw [if_neg hemp, List.reverse_append, List.reverse_cons, List.reverse_reverse,
      ← hlast]

theorem matchParamLine_build (nm tok sfx : List Char)
    (hnm : nm ≠ []) (hnmq : ∀ c ∈ nm, c ≠ '"')
    (htokne : tok ≠ []) (htokdd : ∀ c ∈ tok, isDigitDot c = true) :
    matchParamLine ('"' :: (nm ++ ('"' :: '=' :: ' ' :: (tok ++ 'm' :: 'm' :: sfx)))) =
      some (nm, tok) := by
  set sfx2 : List Char := (sfx.reverse.dropWhile isPySpace).reverse with hsfx2
  have hfronteq : '"' :: (nm ++ ('"' :: '=' :: ' ' :: (tok ++ 'm' :: 'm' :: sfx))) =
      ('"' :: (nm ++ ('"' :: '=' :: ' ' :: (tok ++ [ 'm', 'm'])))) ++ sfx := by
    simp
  have hfrontlast : ('"' :: (nm ++ ('"' :: '=' :: ' ' :: (tok ++ [ 'm', 'm'])))) =
      ('"' :: (nm ++ ('"' :: '=' :: ' ' :: (tok ++ [ 'm'])))) ++ [ 'm'] := by
    simp
  have hstrip : pyStrip ('"' :: (nm ++ ('"' :: '=' :: ' ' :: (tok ++ 'm' :: 'm' :: sfx)))) =
      ('"' :: (nm ++ ('"' :: '=' :: ' ' :: (tok ++ [ 'm', 'm'])))) ++ sfx2 := by
    rw [hfronteq]
    exact pyStrip_concat rfl (by decide) hfrontlast (by decide)
  have hshape : ('"' :: (nm ++ ('"' :: '=' :: ' ' :: (tok ++ [ 'm', 'm'])))) ++ sfx2 =
      '"' :: (nm ++ ('"' :: '=' :: ' ' :: (tok ++ 'm' :: 'm' :: sfx2))) := by
    simp
  have h1 : (pyStrip ('"' :: (nm ++ ('"' :: '=' :: ' ' ::
      (tok ++ 'm' :: 'm' :: sfx))))).dropWhile isPySpace =
      '"' :: (nm ++ ('"' :: '=' :: ' ' :: (tok ++ 'm' :: 'm' :: sfx2))) := by
    rw [hstrip, hshape, List.dropWhile_cons]
    simp [isPySpace]
  rw [matchParamLine, h1]
  have hq : ∀ c ∈ nm, (fun c => decide (c ≠ '"')) c = true := by
    intro c hc
    simp [hnmq c hc]
  have htake : (nm ++ ('"' :: '=' :: ' ' :: (tok ++ 'm' :: 'm' :: sfx2))).takeWhile
      (fun c => decide (c ≠ '"')) = nm := by
    rw [takeWhile_all_append hq, List.takeWhile_cons]
    simp
  have hdrop : (nm ++ ('"' :: '=' :: ' ' :: (tok ++ 'm' :: 'm' :: sfx2))).dropWhile
      (fun c => decide (c ≠ '"')) = '"' :: '=' :: ' ' :: (tok ++ 'm' :: 'm' :: sfx2) := by
    rw [dropWhile_all_append hq, List.dropWhile_cons]
    simp
  show matchEqNumber ((nm ++ ('"' :: '=' :: ' ' :: (tok ++ 'm' :: 'm' :: sfx2))).takeWhile
      (fun c => decide (c ≠ '"'))) (nm ++ ('"' :: '=' :: ' ' :: (tok ++ 'm' :: 'm' :: sfx2))) =
    some (nm, tok)
  rw [matchEqNumber, htake, hdrop]
  have hne : (nm.isEmpty = true) = False := by
    simp [List.isEmpty_iff, hnm]
  simp only []
  rw [if_neg (by simp [List.isEmpty_iff, hnm])]
  have h2 : ('=' :: ' ' :: (tok ++ 'm' :: 'm' :: sfx2)).dropWhile isPySpace =
      '=' :: ' ' :: (tok ++ 'm' :: 'm' :: sfx2) := by
    rw [List.dropWhile_cons]
    simp [isPySpace]
  rw [h2]
  show (matchNumberUnit (' ' :: (tok ++ 'm' :: 'm' :: sfx2))).map
      (fun tok => (nm, tok)) = some (nm, tok)
  rcases tok with _ | ⟨t0, tok2⟩
  · exact absurd rfl htokne
  have ht0 : isDigitDot t0 = true := htokdd t0 (by simp)
  have h3 : (' ' :: ((t0 :: tok2) ++ 'm' :: 'm' :: sfx2)).dropWhile isPySpace =
      (t0 :: tok2) ++ 'm' :: 'm' :: sfx2 := by
    rw [List.dropWhile_cons]
    rw [if_pos (by decide)]
    rw [List.cons_append, List.dropWhile_cons, digitdot_not_space ht0]
    simp
  have h4 : ((t0 :: tok2) ++ 'm' :: 'm' :: sfx2).takeWhile isDigitDot = t0 :: tok2 := by
    rw [takeWhile_all_append htokdd, List.takeWhile_cons]
    simp [isDigitDot]
  have h5 : ((t0 :: tok2) ++ 'm' :: 'm' :: sfx2).dropWhile isDigitDot =
      'm' :: 'm' :: sfx2 := by
    rw [dropWhile_all_append htokdd, List.dropWhile_cons]
    simp [isDigitDot]
  have hmn : matchNumberUnit (' ' :: ((t0 :: tok2) ++ 'm' :: 'm' :: sfx2)) =
      some (t0 :: tok2) := by
    simp only [matchNumberUnit, h3, h4, h5]
    rw [if_neg (by simp)]
  rw [hmn]
  rfl

/-- Claim C10: recognition does not require the line to end after the unit —
any line of the shape `"<name>"= <number>mm<anything>` is recognized, and when
the name is in the update dict, serialization rebuilds the line as
`"<name>"= <value>mm` and discards whatever followed `mm`. -/
theorem trailing_text_discarded (name tok suffix : String) (v : PyF)
    (hname : name.data ≠ []) (hnameq : ∀ c ∈ name.data, c ≠ '"')
    (htokne : tok.data ≠ []) (htokdd : ∀ c ∈ tok.data, isDigitDot c = true)
    (hv : pyFloatL tok.data = some v) :
    parse_line ("\"" ++ name ++ "\"= " ++ tok ++ "mm" ++ suffix) =
      Except.ok (some (name, v)) ∧
    ∀ params u, pyDictGet (pyDict params) name = some u →
      save_data params ["\"" ++ name ++ "\"= " ++ tok ++ "mm" ++ suffix] =
        Except.ok [updatedLine name u] := by
  have hdata : ("\"" ++ name ++ "\"= " ++ tok ++ "mm" ++ suffix).data =
      '"' :: (name.data ++ ('"' :: '=' :: ' ' ::
        (tok.data ++ 'm' :: 'm' :: suffix.data))) := by
    simp only [String.data_append]
    simp
  have hmatch : matchParamLine (("\"" ++ name ++ "\"= " ++ tok ++ "mm" ++ suffix).data) =
      some (name.data, tok.data) := by
    rw [hdata]
    exact matchParamLine_build name.data tok.data suffix.data hname hnameq htokne htokdd
  have hparse : parse_line ("\"" ++ name ++ "\"= " ++ tok ++ "mm" ++ suffix) =
      Except.ok (some (name, v)) := by
    rw [parse_line, hmatch]
    show (match pyFloatL tok.data with
      | some v => Except.ok (some (String.mk name.data, v))
      | none => Except.error ()) = Except.ok (some (name, v))
    rw [hv]
  refine ⟨hparse, fun params u hu => ?_⟩
  have hline := lineOut_parse_hit hparse hu
  rw [save_data]
  simp only [mapME, hline]

theorem trailing_text_discarded_witness :
    parse_line ("\"" ++ "Len" ++ "\"= " ++ "4.5" ++ "mm" ++ " ; note") =
      Except.ok (some ("Len", PyF.finite (9 / 2))) ∧
    save_data [("Len", PyF.finite 7)]
        ["\"" ++ "Len" ++ "\"= " ++ "4.5" ++ "mm" ++ " ; note"] =
      Except.ok [updatedLine "Len" (PyF.finite 7)] :=
  ⟨(trailing_text_discarded "Len" "4.5" " ; note" (PyF.finite (9 / 2)) (by decide)
      (by decide) (by decide) (by decide) (by with_unfolding_all decide)).1,
    (trailing_text_discarded "Len" "4.5" " ; note" (PyF.finite (9 / 2)) (by decide)
      (by decide) (by decide) (by decide) (by with_unfolding_all decide)).2
      [("Len", PyF.finite 7)] (PyF.finite 7) (by with_unfolding_all decide)⟩

/-- Claim C8: a preset data line whose value list fails numeric parsing is
skipped in its entirety — the accumulated state is unchanged, no partial
adoption and no exception — and the remaining lines load exactly as if the
malformed line were absent. -/
theorem malformed_preset_skipped (line : String) (h : presetMalformed line = true) :
    (∀ st, presetStep st line = st) ∧
      ∀ pre post : List String,
        load_preset_file (pre ++ line :: post) = load_preset_file (pre ++ post) := by
  rw [presetMalformed] at h
  simp only [Bool.and_eq_true, Bool.not_eq_true'] at h
  rcases h with ⟨⟨⟨h1, h2⟩, h3⟩, h4, h5⟩
  have hstep : ∀ st, presetStep st line = st := by
    intro st
    rw [presetStep]
    rw [if_neg (by rw [h1]; exact Bool.false_ne_true)]
    rw [if_neg (by intro he; rw [he] at h2; simp at h2)]
    rw [if_pos h3]
    rw [if_neg (by rw [h4]; exact Bool.false_ne_true)]
    rw [Option.isNone_iff_eq_none] at h5
    simp only [h5]
  refine ⟨hstep, fun pre post => ?_⟩
  rw [load_preset_file, load_preset_file, List.foldl_append, List.foldl_append]
  rw [List.foldl_cons, hstep]

theorem malformed_preset_skipped_witness :
    presetMalformed "B = 1,x" = true ∧
      load_preset_file ["A = 1,2", "B = 1,x", "C = 3"] =
        load_preset_file ["A = 1,2", "C = 3"] :=
  ⟨by with_unfolding_all decide,
    (malformed_preset_skipped "B = 1,x" (by with_unfolding_all decide)).2
      ["A = 1,2"] ["C = 3"]⟩

theorem pyLtB_asymm {a b : PyF} (h : pyLtB a b = true) : pyLtB b a = false := by
  cases a with
  | finite qa =>
    cases b with
    | finite qb =>
      have h2 : qa < qb := of_decide_eq_true h
      show decide (qb < qa) = false
      rw [decide_eq_false_iff_not]
      exact lt_asymm h2
    | inf => rfl
    | ninf => exact Bool.noConfusion h
    | nan => exact Bool.noConfusion h
  | inf => exact Bool.noConfusion h
  | ninf =>
    cases b with
    | finite qb => rfl
    | inf => rfl
    | ninf => exact Bool.noConfusion h
    | nan => exact Bool.noConfusion h
  | nan => exact Bool.noConfusion h

theorem mem_insertPy {x a : PyF} :
    ∀ {l : List PyF}, a ∈ insertPy x l → a = x ∨ a ∈ l := by
  intro l
  induction l with
  | nil =>
    intro h
    rw [insertPy] at h
    exact Or.inl (List.mem_singleton.mp h)
  | cons y ys ih =>
    intro h
    rw [insertPy] at h
    by_cases hxy : pyLtB x y = true
    · rw [if_pos hxy] at h
      rcases List.mem_cons.mp h with h1 | h1
      · exact Or.inl h1
      · exact Or.inr h1
    · rw [if_neg hxy] at h
      rcases List.mem_cons.mp h with h1 | h1
      · exact Or.inr (by simp [h1])
      · rcases ih h1 with h2 | h2
        · exact Or.inl h2
        · exact Or.inr (by simp [h2])

theorem insertPy_length (x : PyF) : ∀ (l : List PyF),
    (insertPy x l).length = l.length + 1 := by
  intro l
  induction l with
  | nil => rfl
  | cons y ys ih =>
    rw [insertPy]
    by_cases hxy : pyLtB x y = true
    · rw [if_pos hxy]
      rfl
    · rw [if_neg hxy, List.length_cons, ih, List.length_cons]

theorem chain'_insertPy {x : PyF} :
    ∀ {l : List PyF}, l.Chain' (fun a b => pyLtB b a = false) →
      (insertPy x l).Chain' (fun a b => pyLtB b a = false) := by
  intro l
  induction l with
  | nil => intro _; simp [insertPy]
  | cons y ys ih =>
    intro h
    rw [insertPy]
    by_cases hxy : pyLtB x y = true
    · rw [if_pos hxy]
      exact List.Chain'.cons (pyLtB_asymm hxy) h
    · rw [if_neg hxy]
      rcases List.chain'_cons'.mp h with ⟨hhead, htail⟩
      refine List.chain'_cons'.mpr ⟨?_, ih htail⟩
      intro z hz
      cases ys with
      | nil =>
        rw [insertPy] at hz
        cases hz
        simpa using hxy
      | cons w ws =>
        rw [insertPy] at hz
        by_cases hxw : pyLtB x w = true
        · rw [if_pos hxw] at hz
          cases hz
          simpa using hxy
        · rw [if_neg hxw] at hz
          cases hz
          exact hhead _ rfl

theorem pySorted_chain (l : List PyF) :
    (pySorted l).Chain' (fun a b => pyLtB b a = false) := by
  rw [pySorted]
  have hgen : ∀ (l2 : List PyF) (acc : List PyF),
      acc.Chain' (fun a b => pyLtB b a = false) →
      (l2.foldl (fun acc x => insertPy x acc) acc).Chain' (fun a b => pyLtB b a = false) := by
    intro l2
    induction l2 with
    | nil => intro acc h; exact h
    | cons y ys ih =>
      intro acc h
      exact ih (insertPy y acc) (chain'_insertPy h)
  exact hgen l [] (by simp)

theorem pySorted_length (l : List PyF) : (pySorted l).length = l.length := by
  rw [pySorted]
  have hgen : ∀ (l2 acc : List PyF),
      (l2.foldl (fun acc x => insertPy x acc) acc).length = acc.length + l2.length := by
    intro l2
    induction l2 with
    | nil => intro acc; rfl
    | cons y ys ih =>
      intro acc
      rw [List.foldl_cons, ih (insertPy y acc), insertPy_length, List.length_cons]
      omega
  rw [hgen]
  simp

theorem presetStep_cases (st : List (String × List PyF) × ℕ) (line : String) :
    presetStep st line = st ∨
      ∃ nm values, values ≠ [] ∧
        presetStep st line = (pyDictInsert st.1 nm (pySorted values), st.2 + 1) := by
  simp only [presetStep]
  split
  · exact Or.inl rfl
  · split
    · exact Or.inl rfl
    · split
      · split
        · exact Or.inl rfl
        · split
          · exact Or.inl rfl
          · split
            · exact Or.inl rfl
            · rename_i values hvals hne
              refine Or.inr ⟨_, values, ?_, rfl⟩
              intro hemp
              rw [hemp] at hne
              exact hne rfl
      · exact Or.inl rfl

theorem chain_le_of_pySorted_map {qs : List ℚ} {cs : List PyF}
    (hcs : cs.Chain' (fun a b => pyLtB b a = false))
    (hmap : cs = qs.map PyF.finite) :
    qs.Chain' (fun a b => a ≤ b) := by
  rw [hmap, List.chain'_map] at hcs
  refine hcs.imp ?_
  intro a b h
  have h2 : decide (b < a) = false := h
  rw [decide_eq_false_iff_not] at h2
  exact le_of_not_lt h2

/-- Claim C9 (amended): after loading a preset file, every entry's candidate
sequence is non-empty and — whenever its values are finite — sorted in
non-decreasing order; duplicate values are preserved, not removed. -/
theorem preset_invariant_amended (lines : List String) (name : String) (cs : List PyF)
    (h : pyDictGet (load_preset_file lines).1 name = some cs) :
    cs ≠ [] ∧ ∀ qs : List ℚ, cs = qs.map PyF.finite →
      qs.Chain' (fun a b => a ≤ b) := by
  have hgen : ∀ (ls : List String) (st : List (String × List PyF) × ℕ),
      (∀ n2 cs2, pyDictGet st.1 n2 = some cs2 →
        cs2 ≠ [] ∧ cs2.Chain' (fun a b => pyLtB b a = false)) →
      ∀ n2 cs2, pyDictGet (ls.foldl presetStep st).1 n2 = some cs2 →
        cs2 ≠ [] ∧ cs2.Chain' (fun a b => pyLtB b a = false) := by
    intro ls
    induction ls with
    | nil => intro st hinv n2 cs2 hget; exact hinv n2 cs2 hget
    | cons l ls ih =>
      intro st hinv n2 cs2 hget
      rw [List.foldl_cons] at hget
      refine ih (presetStep st l) ?_ n2 cs2 hget
      intro n3 cs3 hget3
      rcases presetStep_cases st l with hcase | ⟨nm, values, hvne, hcase⟩
      · rw [hcase] at hget3
        exact hinv n3 cs3 hget3
      · rw [hcase] at hget3
        rw [pyDictGet_insert] at hget3
        by_cases hk : n3 = nm
        · rw [if_pos hk] at hget3
          injection hget3 with hg
          subst hg
          constructor
          · intro hemp
            have hlen := pySorted_length values
            rw [hemp] at hlen
            simp at hlen
            exact hvne (List.length_eq_zero.mp hlen.symm)
          · exact pySorted_chain values
        · rw [if_neg hk] at hget3
          exact hinv n3 cs3 hget3
  have hP : cs ≠ [] ∧ cs.Chain' (fun a b => pyLtB b a = false) := by
    refine hgen lines ([], 0) ?_ name cs h
    intro n2 cs2 hget
    exact absurd hget (by simp [pyDictGet])
  exact ⟨hP.1, fun qs hqs => chain_le_of_pySorted_map hP.2 hqs⟩

theorem preset_invariant_witness :
    ([PyF.finite 1, PyF.finite 2, PyF.finite 3] : List PyF) ≠ [] ∧
      ∀ qs : List ℚ, [PyF.finite 1, PyF.finite 2, PyF.finite 3] = qs.map PyF.finite →
        qs.Chain' (fun a b => a ≤ b) :=
  preset_invariant_amended ["X = 3,1,2"] "X" [PyF.finite 1, PyF.finite 2, PyF.finite 3]
    (by with_unfolding_all decide)

/-- Claim C9, counterexample to the claim as stated: candidate lists are not
deduplicated — a preset line `X = 5,5` loads a candidate sequence containing
the value 5 twice. -/
theorem preset_invariant_counterexample :
    pyDictGet (load_preset_file ["X = 5,5"]).1 "X" =
        some [PyF.finite 5, PyF.finite 5] ∧
      ¬ ([PyF.finite 5, PyF.finite 5] : List PyF).Nodup := by
  with_unfolding_all decide

theorem pyIndexQ_spec : ∀ {l : List ℚ} {x : ℚ} {j : ℕ}, pyIndexQ l x = some j →
    ∃ hj : j < l.length, l.get ⟨j, hj⟩ = x ∧
      ∀ i (hi : i < l.length), i < j → l.get ⟨i, hi⟩ ≠ x := by
  intro l
  induction l with
  | nil => intro x j h; exact absurd h (by simp [pyIndexQ])
  | cons y ys ih =>
    intro x j h
    rw [pyIndexQ] at h
    by_cases hyx : (y == x) = true
    · rw [if_pos hyx] at h
      injection h with hj0
      subst hj0
      refine ⟨by simp, eq_of_beq hyx, ?_⟩
      intro i hi hij
      exact absurd hij (Nat.not_lt_zero i)
    · rw [if_neg hyx] at h
      rcases Option.map_eq_some'.mp h with ⟨j0, hj0, hjeq⟩
      subst hjeq
      rcases ih hj0 with ⟨hlt, hget, hfirst⟩
      refine ⟨by simpa using Nat.succ_lt_succ hlt, hget, ?_⟩
      intro i hi hij
      cases i with
      | zero =>
        intro he
        exact hyx (beq_iff_eq.mpr he)
      | succ i0 =>
        exact hfirst i0 (by simpa using hi) (by omega)

theorem pyIndexQ_isSome : ∀ {l : List ℚ} {x : ℚ}, x ∈ l → (pyIndexQ l x).isSome = true := by
  intro l
  induction l with
  | nil => intro x hx; exact absurd hx (by simp)
  | cons y ys ih =>
    intro x hx
    rw [pyIndexQ]
    by_cases hyx : (y == x) = true
    · rw [if_pos hyx]
      rfl
    · rw [if_neg hyx]
      rcases List.mem_cons.mp hx with h1 | h1
      · exact absurd (beq_iff_eq.mpr h1.symm) hyx
      · have hs := ih h1
        cases hpy : pyIndexQ ys x with
        | none => rw [hpy] at hs; exact absurd hs (by simp)
        | some j => rfl

theorem minfold_spec (v : ℚ) : ∀ (xs : List ℚ) (x : ℚ), ∃ p, ∃ hp : p < (x :: xs).length,
    xs.foldl (fun b y => if |y - v| < |b - v| then y else b) x = (x :: xs).get ⟨p, hp⟩ ∧
    (∀ k (hk : k < (x :: xs).length),
      |(x :: xs).get ⟨p, hp⟩ - v| ≤ |(x :: xs).get ⟨k, hk⟩ - v|) ∧
    (∀ k (hk : k < (x :: xs).length), k < p →
      |(x :: xs).get ⟨p, hp⟩ - v| < |(x :: xs).get ⟨k, hk⟩ - v|) := by
  intro xs
  induction xs with
  | nil =>
    intro x
    refine ⟨0, by simp, rfl, ?_, ?_⟩
    · intro k hk
      cases k with
      | zero => exact le_refl _
      | succ k0 => exact absurd hk (by simp)
    · intro k hk hk0
      exact absurd hk0 (Nat.not_lt_zero k)
  | cons y ys ih =>
    intro x
    rw [List.foldl_cons]
    by_cases hyx : |y - v| < |x - v|
    · rw [if_pos hyx]
      rcases ih y with ⟨p, hp, heq, hmin, hstrict⟩
      refine ⟨p + 1, by simpa using Nat.succ_lt_succ hp, heq, ?_, ?_⟩
      · intro k hk
        cases k with
        | zero =>
          calc |(y :: ys).get ⟨p, hp⟩ - v| ≤ |y - v| := hmin 0 (by simp)
          _ ≤ |x - v| := le_of_lt hyx
        | succ k0 =>
          exact hmin k0 (by simpa using hk)
      · intro k hk hkp
        cases k with
        | zero =>
          calc |(y :: ys).get ⟨p, hp⟩ - v| ≤ |y - v| := hmin 0 (by simp)
          _ < |x - v| := hyx
        | succ k0 =>
          exact hstrict k0 (by simpa using hk) (by omega)
    · rw [if_neg hyx]
      have hxy : |x - v| ≤ |y - v| := le_of_not_lt hyx
      rcases ih x with ⟨p, hp, heq, hmin, hstrict⟩
      cases p with
      | zero =>
        refine ⟨0, by simp, heq, ?_, ?_⟩
        · intro k hk
          cases k with
          | zero => exact le_refl _
          | succ k0 =>
            cases k0 with
            | zero =>
              calc |(x :: y :: ys).get ⟨0, by simp⟩ - v| = |x - v| := rfl
              _ ≤ |y - v| := hxy
            | succ k1 =>
              have := hmin (k1 + 1) (by simpa using Nat.lt_of_succ_lt_succ hk)
              exact this
        · intro k hk hk0
          exact absurd hk0 (Nat.not_lt_zero k)
      | succ p0 =>
        refine ⟨p0 + 2, by simpa using Nat.succ_lt_succ hp, heq, ?_, ?_⟩
        · intro k hk
          cases k with
          | zero => exact hmin 0 (by simp)
          | succ k0 =>
            cases k0 with
            | zero =>
              calc |(x :: ys).get ⟨p0 + 1, hp⟩ - v| ≤ |x - v| := hmin 0 (by simp)
              _ ≤ |y - v| := hxy
            | succ k1 =>
              exact hmin (k1 + 1) (by simpa using Nat.lt_of_succ_lt_succ hk)
        · intro k hk hkp
          cases k with
          | zero => exact hstrict 0 (by simp) (by omega)
          | succ k0 =>
            cases k0 with
            | zero =>
              calc |(x :: ys).get ⟨p0 + 1, hp⟩ - v| < |x - v| := hstrict 0 (by simp) (by omega)
              _ ≤ |y - v| := hxy
            | succ k1 =>
              exact hstrict (k1 + 1) (by simpa using Nat.lt_of_succ_lt_succ hk) (by omega)

/-- Claim C7: for a non-empty ascending candidate list, the slider-index
snippet returns the position of the first candidate equal to the current
value when one exists, and otherwise the position of a candidate with
minimum absolute difference, with ties broken toward the smaller
candidate. -/
theorem resolve_index_nearest (l : List ℚ) (v : ℚ) (hne : l ≠ [])
    (hasc : l.Chain' (fun a b => a ≤ b)) :
    ∃ j, ∃ hj : j < l.length, closestIndex l v = some j ∧
      (v ∈ l → l.get ⟨j, hj⟩ = v ∧
        ∀ i (hi : i < l.length), i < j → l.get ⟨i, hi⟩ ≠ v) ∧
      (∀ k (hk : k < l.length), |l.get ⟨j, hj⟩ - v| ≤ |l.get ⟨k, hk⟩ - v|) ∧
      (∀ k (hk : k < l.length), |l.get ⟨k, hk⟩ - v| = |l.get ⟨j, hj⟩ - v| →
        l.get ⟨j, hj⟩ ≤ l.get ⟨k, hk⟩) := by
  have hpair : ∀ i k (hi : i < l.length) (hk : k < l.length), i ≤ k →
      l.get ⟨i, hi⟩ ≤ l.get ⟨k, hk⟩ := by
    intro i k hi hk hik
    rcases Nat.eq_or_lt_of_le hik with heq | hlt
    · subst heq
      exact le_refl _
    · have hp := List.chain'_iff_pairwise.mp hasc
      exact List.pairwise_iff_get.mp hp ⟨i, hi⟩ ⟨k, hk⟩ hlt
  by_cases hmem : l.contains v = true
  · have hvmem : v ∈ l := List.elem_iff.mp hmem
    have hidx : (pyIndexQ l v).isSome = true := pyIndexQ_isSome hvmem
    rcases Option.isSome_iff_exists.mp hidx with ⟨j, hj⟩
    rcases pyIndexQ_spec hj with ⟨hjlt, hget, hfirst⟩
    refine ⟨j, hjlt, ?_, ?_, ?_, ?_⟩
    · rw [closestIndex, if_pos hmem]
      exact hj
    · intro _
      exact ⟨hget, hfirst⟩
    · intro k hk
      rw [hget]
      simp [abs_nonneg]
    · intro k hk hkeq
      rw [hget] at hkeq ⊢
      have h0 : |l.get ⟨k, hk⟩ - v| = 0 := by
        rw [hkeq]
        simp
      have hkv : l.get ⟨k, hk⟩ = v := by
        have h2 := abs_eq_zero.mp h0
        have h3 := sub_eq_zero.mp h2
        exact h3
      rw [hkv]
  · have hvnot : v ∉ l := by
      intro hv
      exact hmem (List.elem_iff.mpr hv)
    rcases l with _ | ⟨x, xs⟩
    · exact absurd rfl hne
    rcases minfold_spec v xs x with ⟨p, hp, heq, hmin, hstrict⟩
    have hmmem : (x :: xs).get ⟨p, hp⟩ ∈ x :: xs := List.get_mem _ _ _
    have hidx : (pyIndexQ (x :: xs) ((x :: xs).get ⟨p, hp⟩)).isSome = true :=
      pyIndexQ_isSome hmmem
    rcases Option.isSome_iff_exists.mp hidx with ⟨j, hj⟩
    rcases pyIndexQ_spec hj with ⟨hjlt, hget, hfirst⟩
    have hjp : j ≤ p := by
      by_contra hjp
      push_neg at hjp
      exact hfirst p hp hjp rfl
    have habs : |(x :: xs).get ⟨j, hjlt⟩ - v| = |(x :: xs).get ⟨p, hp⟩ - v| := by
      rw [hget]
    refine ⟨j, hjlt, ?_, ?_, ?_, ?_⟩
    · rw [closestIndex, if_neg hmem, pyMinAbs]
      show pyIndexQ (x :: xs)
        (xs.foldl (fun b y => if |y - v| < |b - v| then y else b) x) = some j
      rw [heq]
      exact hj
    · intro hv
      exact absurd hv hvnot
    · intro k hk
      rw [habs]
      exact hmin k hk
    · intro k hk hkeq
      by_cases hkp : k < p
      · exfalso
        have hs := hstrict k hk hkp
        rw [habs] at hkeq
        rw [hkeq] at hs
        exact lt_irrefl _ hs
      · push_neg at hkp
        exact hpair j k hjlt hk (le_trans hjp hkp)

theorem resolve_index_nearest_witness :
    closestIndex [100, 200, 400] 250 = some 1 ∧
      closestIndex [100, 200, 400] 200 = some 1 := by
  have hchain : List.Chain' (fun a b : ℚ => a ≤ b) [100, 200, 400] :=
    List.Chain'.cons (by norm_num) (List.Chain'.cons (by norm_num)
      (List.chain'_singleton _))
  constructor
  · rcases resolve_index_nearest [100, 200, 400] 250 (by decide) hchain
      with ⟨j, hj, hidx, _⟩
    rw [hidx]
    rw [show closestIndex [100, 200, 400] 250 = some 1 by with_unfolding_all decide] at hidx
    injection hidx with hidx2
    rw [hidx2]
  · rcases resolve_index_nearest [100, 200, 400] 200 (by decide) hchain
      with ⟨j, hj, hidx, _⟩
    rw [hidx]
    rw [show closestIndex [100, 200, 400] 200 = some 1 by with_unfolding_all decide] at hidx
    injection hidx with hidx2
    rw [hidx2]
